import Mathlib

/-
Verification of the hashline-tools repository: a shallow embedding of the
opencode TypeScript wrappers (hashedit / hashread) together with a model of
the hashline CLI engine, and proofs of the specification's claims about them.
-/

set_option autoImplicit false

namespace Hashline

/-- Dynamic JavaScript values as received by the opencode tool wrappers.
JavaScript numbers are modelled as integers; the validation logic under
study compares numbers only against integer bounds. -/
inductive JSVal where
  | undefined
  | null
  | num (n : Int)
  | str (s : String)
  | boolean (b : Bool)
  | arr (elems : List JSVal)
  | obj (fields : List (String × JSVal))

/-- First binding of a property name in a JavaScript object literal. -/
def lookupField : List (String × JSVal) → String → JSVal
  | [], _ => .undefined
  | (k, v) :: rest, name => if k = name then v else lookupField rest name

/-- Property access `v.f`; missing properties read as `undefined`. -/
def jsGet : JSVal → String → JSVal
  | .obj fields, name => lookupField fields name
  | _, _ => .undefined

/-- JavaScript truthiness, as tested by `if (v)` and `!v`. -/
def jsTruthy : JSVal → Bool
  | .undefined => false
  | .null => false
  | .num n => n != 0
  | .str s => s != ""
  | .boolean b => b
  | .arr _ => true
  | .obj _ => true

/-- The JavaScript `typeof` operator; `null` and arrays are objects. -/
def jsTypeof : JSVal → String
  | .undefined => "undefined"
  | .null => "object"
  | .num _ => "number"
  | .str _ => "string"
  | .boolean _ => "boolean"
  | .arr _ => "object"
  | .obj _ => "object"

/-- Embedding of `validateAnchor` from src/opencode-tools/hashedit.ts
(lines 4-14): requires a truthy object whose `line` is a number at least 1
and whose `hash` is a string of length exactly 2. -/
def validateAnchor (anchor : JSVal) (fieldName : String) : Except String Unit :=
  if !(jsTruthy anchor) || jsTypeof anchor != "object" then
    .error (fieldName ++ ": must be an object \x7bline: number, hash: string\x7d")
  else
    match jsGet anchor "line" with
    | .num n =>
      if n < 1 then .error (fieldName ++ ".line: must be a positive number")
      else
        match jsGet anchor "hash" with
        | .str s =>
          if s.length != 2 then
            .error (fieldName ++ ".hash: must be a 2-character string (e.g., \x27AB\x27)")
          else .ok ()
        | _ => .error (fieldName ++ ".hash: must be a 2-character string (e.g., \x27AB\x27)")
    | _ => .error (fieldName ++ ".line: must be a positive number")

/-- Embedding of the `edit.lines.forEach` element check shared by both
wrapper versions: every element must be a string. -/
def checkLines (op : String) (index : Nat) : Nat → List JSVal → Except String Unit
  | _, [] => .ok ()
  | i, l :: rest =>
    match l with
    | .str _ => checkLines op index (i + 1) rest
    | _ => .error (op ++ "[" ++ toString index ++ "].lines[" ++ toString i ++ "]: must be a string")

/-- Embedding of `validateEdit` from src/opencode-tools/hashedit.ts
(lines 16-37): unconditionally validates `edit.pos` as an anchor object,
validates a truthy `edit.end`, and for non-delete ops requires `lines` to
be an array of strings. -/
def validateEdit (edit : JSVal) (op : String) (index : Nat) : Except String Unit :=
  if !(jsTruthy edit) || jsTypeof edit != "object" then
    .error (op ++ "[" ++ toString index ++ "]: must be an object")
  else
    match validateAnchor (jsGet edit "pos") (op ++ "[" ++ toString index ++ "].pos") with
    | .error e => .error e
    | .ok () =>
      match (if jsTruthy (jsGet edit "end") then
               validateAnchor (jsGet edit "end") (op ++ "[" ++ toString index ++ "].end")
             else .ok ()) with
      | .error e => .error e
      | .ok () =>
        if op != "delete" then
          match jsGet edit "lines" with
          | .arr lines => checkLines op index 0 lines
          | _ => .error (op ++ "[" ++ toString index ++ "].lines: must be an array of strings")
        else .ok ()

/-- Embedding of `validateEdit` from src/unnamed/part_002 (lines 4-27), the
string-anchor wrapper version: `pos` and `end` must be strings when present
(absent `pos` is accepted), and for non-delete ops `lines` must be an array
of strings. -/
def validateEditStr (edit : JSVal) (op : String) (index : Nat) : Except String Unit :=
  if !(jsTruthy edit) || jsTypeof edit != "object" then
    .error (op ++ "[" ++ toString index ++ "]: must be an object")
  else
    match jsGet edit "pos" with
    | .undefined => continuePos edit op index
    | .str _ => continuePos edit op index
    | _ => .error (op ++ "[" ++ toString index ++ "].pos: must be a string in format \"LINE#HASH\" (e.g., \"8#RT\")")
where
  continuePos (edit : JSVal) (op : String) (index : Nat) : Except String Unit :=
    match jsGet edit "end" with
    | .undefined => continueEnd edit op index
    | .str _ => continueEnd edit op index
    | _ => .error (op ++ "[" ++ toString index ++ "].end: must be a string in format \"LINE#HASH\" (e.g., \"8#RT\")")
  continueEnd (edit : JSVal) (op : String) (index : Nat) : Except String Unit :=
    if op != "delete" then
      match jsGet edit "lines" with
      | .arr lines => checkLines op index 0 lines
      | _ => .error (op ++ "[" ++ toString index ++ "].lines: must be an array of strings")
    else .ok ()

/-- Elements of the edit batch the wrapper serializes and pipes to
`hashline-tools edit` on stdin. The wrapper only ever pushes objects of
these three shapes (hashedit.ts lines 113-142). -/
inductive BatchEdit where
  | replaceE (pos : JSVal) (endv : JSVal) (lines : JSVal)
  | appendE (pos : JSVal) (lines : JSVal)
  | prependE (pos : JSVal) (lines : JSVal)

/-- Batch element pushed for a `replace` argument (hashedit.ts line 118). -/
def mkReplace (e : JSVal) : BatchEdit :=
  .replaceE (jsGet e "pos") (jsGet e "end") (jsGet e "lines")

/-- Batch element pushed for an `append` argument (hashedit.ts line 125). -/
def mkAppend (e : JSVal) : BatchEdit :=
  .appendE (jsGet e "pos") (jsGet e "lines")

/-- Batch element pushed for a `prepend` argument (hashedit.ts line 132). -/
def mkPrepend (e : JSVal) : BatchEdit :=
  .prependE (jsGet e "pos") (jsGet e "lines")

/-- Batch element pushed for a `delete` argument: a `replace` with empty
`lines` (hashedit.ts line 140). -/
def mkDelete (e : JSVal) : BatchEdit :=
  .replaceE (jsGet e "pos") (jsGet e "end") (.arr [])

/-- One `args.<kind>.forEach((edit, i) => { validateEdit(...); edits.push(...) })`
loop from hashedit.ts: validate each element in order, translating it. -/
def processOps (op : String) (mk : JSVal → BatchEdit) : Nat → List JSVal → Except String (List BatchEdit)
  | _, [] => .ok []
  | i, e :: rest =>
    match validateEdit e op i with
    | .error msg => .error msg
    | .ok () =>
      match processOps op mk (i + 1) rest with
      | .error msg => .error msg
      | .ok tail => .ok (mk e :: tail)

/-- Arguments of the hashedit tool (hashedit.ts `args` schema): the four
operation arrays are optional, and their elements arrive as dynamic values
that `validateEdit` re-checks. -/
structure EditArgs where
  filePath : String
  replace : Option (List JSVal)
  append : Option (List JSVal)
  prepend : Option (List JSVal)
  delete : Option (List JSVal)
  write : Option String

/-- The `if (args.<kind>)` guard: a missing array contributes nothing.
An empty array is truthy in JavaScript but its forEach is a no-op, which
coincides with processing the empty list. -/
def optList : Option (List JSVal) → List JSVal
  | none => []
  | some l => l

/-- Construction of the `edits` batch in hashedit.ts lines 113-142: all
replace operations, then all append, then all prepend, then all delete
operations (as replaces with empty lines), validating as it goes. -/
def buildEdits (args : EditArgs) : Except String (List BatchEdit) :=
  match processOps "replace" mkReplace 0 (optList args.replace) with
  | .error e => .error e
  | .ok r =>
    match processOps "append" mkAppend 0 (optList args.append) with
    | .error e => .error e
    | .ok a =>
      match processOps "prepend" mkPrepend 0 (optList args.prepend) with
      | .error e => .error e
      | .ok p =>
        match processOps "delete" mkDelete 0 (optList args.delete) with
        | .error e => .error e
        | .ok d => .ok (r ++ a ++ p ++ d)

/-- The error thrown by hashedit.ts lines 144-146 when the batch is empty. -/
def noEditsMsg : String :=
  "No edits provided. Use at least one of: replace, append, prepend, delete, write.\n\nExample:\n  replace: [\x7bpos: \x7bline: 1, hash: \x27AB\x27\x7d, lines: [\x27new content\x27]\x7d]\n  write: \x27entire file content here\x27"

/-- A file system: resolved path to file contents, when the file exists. -/
def FS := String → Option String

/-- JavaScript `s.startsWith("/")`: the first character is a slash. Written
on the character data so concrete instances compute. -/
def startsWithSlash (s : String) : Bool :=
  match s.data with
  | c :: _ => c == '/'
  | [] => false

/-- Extraction of the diff body from CLI output: the greedy regex
match of output against diff sentinel markers in hashedit.ts line 155,
falling back to the whole output. -/
def extractDiff (output : String) : String :=
  match output.splitOn "<diff>" with
  | [] => output
  | [_] => output
  | _ :: rest =>
    let tail := String.intercalate "<diff>" rest
    let qs := tail.splitOn "</diff>"
    if qs.length ≤ 1 then output
    else (String.intercalate "</diff>" qs.dropLast).trim

/-- Embedding of `execute` from src/opencode-tools/hashedit.ts (lines
89-172). The CLI binary (an external collaborator) is a parameter taking
the current file system, the resolved path and the decoded batch, and
returning the new file system with its stdout, or a failure. The result is
the final file system paired with the returned text or thrown error. -/
def executeEdit (cli : FS → String → List BatchEdit → Except String (FS × String))
    (fs : FS) (dir : String) (args : EditArgs) : FS × Except String String :=
  let filepath := if startsWithSlash args.filePath then args.filePath
                  else dir ++ "/" ++ args.filePath
  match args.write with
  | some w =>
    let fileExists := (fs filepath).isSome
    let newFs : FS := fun p => if p = filepath then some w else fs p
    let size := w.utf8ByteSize
    (newFs, .ok ((if fileExists then "Updated" else "Created") ++ " file: "
      ++ args.filePath ++ "\nSize: " ++ toString size ++ " bytes"))
  | none =>
    match buildEdits args with
    | .error e => (fs, .error e)
    | .ok edits =>
      if edits.length = 0 then (fs, .error noEditsMsg)
      else
        match cli fs filepath edits with
        | .ok (fs₂, output) =>
          (fs₂, .ok ("Edited " ++ args.filePath ++ ":\n\n" ++ extractDiff output))
        | .error err => (fs, .error err)

/-- Arguments of the hashread tool (hashread.ts `args` schema). -/
structure ReadArgs where
  filePath : String
  offset : Option Int
  limit : Option Int

/-- Embedding of `execute` from src/opencode-tools/hashread.ts (lines
10-32): resolve the path, build the flag list, invoke the CLI, and return
its stdout unchanged. -/
def executeRead (cli : String → List String → Except String String)
    (dir : String) (args : ReadArgs) : Except String String :=
  let filepath := if startsWithSlash args.filePath then args.filePath
                  else dir ++ "/" ++ args.filePath
  let offsetArg := match args.offset with
    | some o => ["--offset", toString o]
    | none => []
  let limitArg := match args.limit with
    | some l => ["--limit", toString l]
    | none => []
  cli filepath (offsetArg ++ limitArg)

/-- Path resolution as the specification describes it: absolute paths pass
through, anything else is prefixed with the context directory and a slash,
with no normalization. Stated separately so the two tools' inline copies
can be compared against it. -/
def resolvePathSpec (dir fp : String) : String :=
  if startsWithSlash fp then fp else dir ++ "/" ++ fp

/-- Flag list the hashread wrapper hands the CLI, as a named definition. -/
def readFlags (args : ReadArgs) : List String :=
  (match args.offset with
    | some o => ["--offset", toString o]
    | none => []) ++
  (match args.limit with
    | some l => ["--limit", toString l]
    | none => [])

/-
The hashline CLI engine itself (the Rust binary) is not part of the source
tree; only its wrappers are. The definitions below are modelled from the
specification, as its doc comments note.
-/

/-- Modelled from the spec: a line terminator is LF, CRLF, or absent (only
for the last line of a file that does not end in a newline), section 3. -/
inductive Term where
  | lf
  | crlf
  | noTerm
deriving DecidableEq

/-- Modelled from the spec: a logical line is its content without any
line-break character together with its terminator, section 3. -/
structure Line where
  content : List Char
  term : Term
deriving DecidableEq

/-- Characters a terminator contributes back to the byte stream. -/
def termChars : Term → List Char
  | .lf => ['\n']
  | .crlf => ['\r', '\n']
  | .noTerm => []

/-- Modelled from the spec: the L1 line splitter worker, section 4.1.
Recognizes CRLF and LF; a bare CR is content; trailing content without a
newline becomes a final unterminated line. The accumulator holds the
current line's content in reverse. -/
def splitLinesAux : List Char → List Char → List Line
  | [], acc => if acc = [] then [] else [⟨acc.reverse, .noTerm⟩]
  | '\r' :: '\n' :: rest, acc => ⟨acc.reverse, .crlf⟩ :: splitLinesAux rest []
  | '\n' :: rest, acc => ⟨acc.reverse, .lf⟩ :: splitLinesAux rest []
  | c :: rest, acc => splitLinesAux rest (c :: acc)

/-- Modelled from the spec: the L1 line splitter, section 4.1. -/
def splitLines (cs : List Char) : List Line :=
  splitLinesAux cs []

/-- Concatenating each content and terminator, the inverse direction of the
L1 splitter (section 4.1 round-trip). -/
def joinBuffer : List Line → List Char
  | [] => []
  | l :: rest => l.content ++ termChars l.term ++ joinBuffer rest

/-- Cumulative byte sequence of section 3: the contents joined by a single
newline separator. -/
def joinSep : List (List Char) → List Char
  | [] => []
  | [x] => x
  | x :: xs => x ++ '\n' :: joinSep xs

/-- Modelled from the spec: the digest input for line i, the cumulative
sequence content(1) .. content(i) joined by a single newline, section 3. -/
def cumul (contents : List (List Char)) (i : Nat) : List Char :=
  joinSep (contents.take i)

/-- The normative 36-symbol anchor alphabet, section 6. -/
def anchorAlphabet : List Char :=
  "0123456789ABCDEFGHIJKLMNOPQRSTUVWXYZ".data

/-- Projection of a digest value into the anchor alphabet, section 4.2. -/
def alphaChar (n : Nat) : Char :=
  anchorAlphabet.getD (n % 36) '0'

/-- Modelled from the spec: the digest function is deliberately unspecified
(section 4.2); a fixed, stable, non-cryptographic polynomial hash stands in
for it wherever a concrete digest is required. -/
def polyHash (cs : List Char) : Nat :=
  cs.foldl (fun a c => (a * 131 + c.toNat) % 1000003) 5381

/-- Modelled from the spec: the 2-character hash of line i, the digest of
the cumulative sequence projected into the 36-squared space by two
modulo-36 extractions, sections 3 and 4.2. The digest is a parameter. -/
def hashPair (H : List Char → Nat) (contents : List (List Char)) (i : Nat) : List Char :=
  [alphaChar (H (cumul contents i) % 36), alphaChar ((H (cumul contents i) / 36) % 36)]

/-- Modelled from the spec: one listing line of the L3 renderer, the
line number, hash and content in hashline format, with the line's original
terminator so that the listing round-trips (sections 4.3, 8 and 9). -/
def rendered (n : Nat) (h : List Char) (l : Line) : List Char :=
  (Nat.repr n).data ++ '#' :: (h ++ ':' :: (l.content ++ termChars l.term))

/-- Renders a window of the buffer starting at absolute 1-based line i,
hashing each line from the full cumulative prefix of the buffer. -/
def renderFrom (H : List Char → Nat) (B : List Line) : Nat → List Line → List (List Char)
  | _, [] => []
  | i, l :: rest =>
    rendered i (hashPair H (B.map Line.content) i) l :: renderFrom H B (i + 1) rest

/-- Modelled from the spec: the `read` verb, section 4.3. Offset is clamped
to the buffer, limit caps the emitted window, hashes still come from the
full cumulative prefix. -/
def readOutput (H : List Char → Nat) (F : List Char) (offset limit : Nat) : List (List Char) :=
  let B := splitLines F
  let off := min offset B.length
  renderFrom H B (off + 1) ((B.drop off).take limit)

/-- The `read` verb at its default window: offset 0 and limit 2000,
section 4.3. -/
def readDefault (H : List Char → Nat) (F : List Char) : List (List Char) :=
  readOutput H F 0 2000

/-- Stripping the hashline label from an emitted line: drop through the
first colon, the terminator of the label. -/
def dropLabel : List Char → List Char
  | [] => []
  | c :: rest => if c = ':' then rest else dropLabel rest

/-- Stripping every emitted line and concatenating, the round-trip readback
of section 8 property 1. -/
def stripConcat : List (List Char) → List Char
  | [] => []
  | l :: rest => dropLabel l ++ stripConcat rest

/-- Insertion of a new element before 0-based position n. -/
def insertAt {α : Type} (n : Nat) (c : α) (B : List α) : List α :=
  B.take n ++ c :: B.drop n

/-- Modelled from the spec: the L6 applier on one resolved replace over the
half-open 1-indexed interval from start to endEx, section 4.5 step 3 and
section 4.6; replacement lines inherit the terminator of the first replaced
line, defaulting to LF. -/
def applyReplace (B : List Line) (start endEx : Nat) (repl : List (List Char)) : List Line :=
  let inherited := match B.get? (start - 1) with
    | some l => l.term
    | none => .lf
  B.take (start - 1) ++ repl.map (fun c => ⟨c, inherited⟩) ++ B.drop (endEx - 1)

/-- Modelled from the spec: delete as a first-class plan operation, removing
the half-open 1-indexed interval from start to endEx outright (section 9,
open question note). -/
def applyDelete (B : List Line) (start endEx : Nat) : List Line :=
  B.take (start - 1) ++ B.drop (endEx - 1)

/-- Byte-level occurrence test: does the pattern occur at the head. -/
def leadsOf : List Char → List Char → Bool
  | _ :: _, [] => false
  | [], _ => true
  | x :: xs, y :: ys => if x = y then leadsOf xs ys else false

/-- Byte-level substring test: does the pattern occur anywhere. -/
def containsSeq (pat : List Char) : List Char → Bool
  | [] => leadsOf pat []
  | s@(_ :: rest) => leadsOf pat s || containsSeq pat rest

/-- Presence of the diff envelope opener in a returned text. -/
def hasDiffEnvelope (s : String) : Bool :=
  containsSeq "<diff>".data s.data

/-
Concrete values used to instantiate the claims.
-/

/-- An append or prepend operation that omits its optional `pos`. -/
def noPosEdit : JSVal := .obj [("lines", .arr [.str "x"])]

/-- A well-formed object anchor for line 2 with hash AB. -/
def posAB : JSVal := .obj [("line", .num 2), ("hash", .str "AB")]

/-- A CLI stub that always fails; claims about paths the wrapper never
reaches are instantiated with it. -/
def cliNone : FS → String → List BatchEdit → Except String (FS × String) :=
  fun _ _ _ => .error "unavailable"

/-- The empty file system. -/
def fsEmpty : FS := fun _ => none

/-- Acceptance condition of the amended claim C3: a truthy object whose
`line` is a number at least 1 and whose `hash` is a string of length
exactly 2; no alphabet restriction. -/
def anchorOkSpec (a : JSVal) : Bool :=
  jsTruthy a && jsTypeof a == "object"
    && (match jsGet a "line" with
        | .num n => decide (1 ≤ n)
        | _ => false)
    && (match jsGet a "hash" with
        | .str s => s.length == 2
        | _ => false)

/-
Helper lemmas.
-/

theorem digitChar_label_free (m : Nat) :
    Nat.digitChar m ≠ ':' ∧ Nat.digitChar m ≠ '<' := by
  rcases Nat.lt_or_ge m 16 with h | h
  · interval_cases m <;> exact ⟨by decide, by decide⟩
  · have e : Nat.digitChar m = '*' := by
      unfold Nat.digitChar
      repeat rw [if_neg (by omega)]
    rw [e]
    exact ⟨by decide, by decide⟩

theorem toDigitsCore_label_free (b : Nat) : ∀ (f n : Nat) (ds : List Char),
    (∀ c ∈ ds, c ≠ ':' ∧ c ≠ '<') →
    ∀ c ∈ Nat.toDigitsCore b f n ds, c ≠ ':' ∧ c ≠ '<' := by
  intro f
  induction f with
  | zero => intro n ds h c hc; rw [Nat.toDigitsCore] at hc; exact h c hc
  | succ f ih =>
    intro n ds h c hc
    rw [Nat.toDigitsCore] at hc
    split at hc
    · rw [List.mem_cons] at hc
      rcases hc with hc | hc
      · exact hc ▸ digitChar_label_free _
      · exact h c hc
    · refine ih _ _ ?_ c hc
      intro d hd
      rw [List.mem_cons] at hd
      rcases hd with hd | hd
      · exact hd ▸ digitChar_label_free _
      · exact h d hd

theorem reprData (n : Nat) : (Nat.repr n).data = Nat.toDigits 10 n := rfl

theorem repr_char_ne (n : Nat) : ∀ c ∈ (Nat.repr n).data, c ≠ ':' ∧ c ≠ '<' := by
  intro c hc
  rw [reprData] at hc
  exact toDigitsCore_label_free 10 _ _ [] (by simp) c hc

theorem splitLinesAux_cons (c : Char) (rest acc : List Char)
    (h1 : ∀ r1, c = '\r' → rest = '\n' :: r1 → False)
    (h2 : c = '\n' → False) :
    splitLinesAux (c :: rest) acc = splitLinesAux rest (c :: acc) := by
  rw [splitLinesAux.eq_def]
  split
  · rename_i heq; simp at heq
  · rename_i r1 heq
    injection heq with hc hrest
    exact (h1 r1 hc hrest).elim
  · rename_i r1 heq
    injection heq with hc hrest
    exact (h2 hc).elim
  · rename_i c2 r2 hno1 hno2 heq
    injection heq with hc hrest
    subst hc; subst hrest; rfl

theorem splitAux_join (cs acc : List Char) :
    joinBuffer (splitLinesAux cs acc) = acc.reverse ++ cs := by
  induction cs, acc using splitLinesAux.induct with
  | case1 => simp [splitLinesAux, joinBuffer]
  | case2 acc h => simp [splitLinesAux, joinBuffer, termChars, h]
  | case3 rest acc ih => simp [splitLinesAux, joinBuffer, termChars, ih]
  | case4 rest acc ih => simp [splitLinesAux, joinBuffer, termChars, ih]
  | case5 c rest acc h1 h2 ih =>
    rw [splitLinesAux_cons c rest acc h1 h2, ih]
    simp

/-- The L1 splitter round-trips: rejoining the split lines reproduces the
input byte-for-byte (specification section 4.1). -/
theorem split_join (cs : List Char) : joinBuffer (splitLines cs) = cs := by
  simpa using splitAux_join cs []

theorem alphaChar_ne_colon (n : Nat) : alphaChar n ≠ ':' := by
  have h : n % 36 < 36 := Nat.mod_lt _ (by decide)
  have hall : ∀ m, m < 36 → anchorAlphabet.getD m '0' ≠ ':' := by decide
  exact hall _ h

theorem dropLabel_append (pre post : List Char) (h : ∀ c ∈ pre, c ≠ ':') :
    dropLabel (pre ++ ':' :: post) = post := by
  induction pre with
  | nil => simp [dropLabel]
  | cons c cs ih =>
    have hc : c ≠ ':' := h c (by simp)
    simp only [List.cons_append, dropLabel, if_neg hc]
    exact ih (fun d hd => h d (by simp [hd]))

theorem stripRendered (n : Nat) (h : List Char) (l : Line)
    (hh : ∀ c ∈ h, c ≠ ':') :
    dropLabel (rendered n h l) = l.content ++ termChars l.term := by
  have e : rendered n h l
      = ((Nat.repr n).data ++ '#' :: h) ++ ':' :: (l.content ++ termChars l.term) := by
    simp [rendered]
  rw [e, dropLabel_append]
  intro c hc
  rcases List.mem_append.1 hc with hc | hc
  · exact (repr_char_ne n c hc).1
  · rcases List.mem_cons.1 hc with rfl | hc
    · decide
    · exact hh c hc

theorem hashPair_ne_colon (H : List Char → Nat) (contents : List (List Char)) (i : Nat) :
    ∀ c ∈ hashPair H contents i, c ≠ ':' := by
  intro c hc
  simp [hashPair] at hc
  rcases hc with rfl | rfl <;> exact alphaChar_ne_colon _

/-- Stripping each rendered line of a window and concatenating recovers the
window's raw bytes, terminators included. -/
theorem stripConcat_renderFrom (H : List Char → Nat) (B : List Line) :
    ∀ (win : List Line) (i : Nat), stripConcat (renderFrom H B i win) = joinBuffer win := by
  intro win
  induction win with
  | nil => intro i; rfl
  | cons l rest ih =>
    intro i
    simp only [renderFrom, stripConcat, joinBuffer]
    rw [stripRendered _ _ _ (hashPair_ne_colon H (B.map Line.content) i), ih]

theorem nlSplit : ∀ (x y r s : List Char), '\n' ∉ x → '\n' ∉ y →
    x ++ '\n' :: r = y ++ '\n' :: s → x = y ∧ r = s := by
  intro x
  induction x with
  | nil =>
    intro y r s _ hy h
    cases y with
    | nil => simpa using h
    | cons b bs =>
      simp only [List.nil_append, List.cons_append] at h
      injection h with h1 h2
      cases h1
      simp at hy
  | cons a as ih =>
    intro y r s hx hy h
    cases y with
    | nil =>
      simp only [List.cons_append, List.nil_append] at h
      injection h with h1 h2
      cases h1
      simp at hx
    | cons b bs =>
      simp only [List.cons_append] at h
      injection h with h1 h2
      cases h1
      obtain ⟨e1, e2⟩ := ih bs r s (fun hm => hx (List.mem_cons_of_mem _ hm))
        (fun hm => hy (List.mem_cons_of_mem _ hm)) h2
      exact ⟨by rw [e1], e2⟩

/-- On newline-free contents of equal line counts, the cumulative join is
injective: distinct line lists have distinct digest inputs. -/
theorem joinSep_inj : ∀ (xs ys : List (List Char)), xs.length = ys.length →
    (∀ l ∈ xs, '\n' ∉ l) → (∀ l ∈ ys, '\n' ∉ l) →
    joinSep xs = joinSep ys → xs = ys := by
  intro xs
  induction xs with
  | nil =>
    intro ys h _ _ _
    cases ys with
    | nil => rfl
    | cons y ys => simp at h
  | cons x xs ih =>
    intro ys hlen hx hy hj
    cases ys with
    | nil => simp at hlen
    | cons y ys =>
      cases xs with
      | nil =>
        cases ys with
        | nil =>
          have : x = y := hj
          rw [this]
        | cons y2 ys2 => simp at hlen
      | cons x2 xs2 =>
        cases ys with
        | nil => simp at hlen
        | cons y2 ys2 =>
          have hj' : x ++ '\n' :: joinSep (x2 :: xs2) = y ++ '\n' :: joinSep (y2 :: ys2) := hj
          obtain ⟨e1, e2⟩ := nlSplit _ _ _ _ (hx x (by simp)) (hy y (by simp)) hj'
          have e3 : (x2 :: xs2) = (y2 :: ys2) :=
            ih (y2 :: ys2) (by simpa using hlen)
              (fun l hl => hx l (List.mem_cons_of_mem _ hl))
              (fun l hl => hy l (List.mem_cons_of_mem _ hl)) e2
          rw [e1, e3]

/-- Successful wrapper-side processing of one operation kind translates
each element in order. -/
theorem processOps_ok (op : String) (mk : JSVal → BatchEdit) :
    ∀ (es : List JSVal) (i : Nat) (out : List BatchEdit),
    processOps op mk i es = .ok out → out = es.map mk := by
  intro es
  induction es with
  | nil =>
    intro i out h
    simp only [processOps] at h
    injection h with h
    simp [← h]
  | cons e rest ih =>
    intro i out h
    rw [processOps] at h
    cases hv : validateEdit e op i with
    | error msg => rw [hv] at h; cases h
    | ok u =>
      cases u
      rw [hv] at h
      cases hr : processOps op mk (i + 1) rest with
      | error msg => rw [hr] at h; cases h
      | ok tail =>
        rw [hr] at h
        injection h with h
        rw [← h, ih _ _ hr]
        simp

theorem containsSeq_nil_of_not_mem (p : List Char) (a : Char) :
    ∀ (s : List Char), a ∉ s → containsSeq (a :: p) s = false := by
  intro s
  induction s with
  | nil => intro _; rfl
  | cons c cs ih =>
    intro h
    have hc : a ≠ c := fun e => h (e ▸ List.mem_cons_self c cs)
    rw [containsSeq, leadsOf, if_neg hc]
    simp only [Bool.false_or]
    exact ih (fun hm => h (List.mem_cons_of_mem _ hm))

/-
Claim theorems.
-/

/-- C1: the claim says an `append` or `prepend` operation without `pos` is
accepted and denotes end-of-file resp. beginning-of-file insertion, and the
tool schema and sibling wrapper (src/unnamed/part_002) agree, but
`validateEdit` in src/opencode-tools/hashedit.ts validates `pos`
unconditionally and rejects the operation, so the whole batch errors out. -/
theorem c1_posless_append_prepend_rejected :
    validateEdit noPosEdit "append" 0
      = .error "append[0].pos: must be an object \x7bline: number, hash: string\x7d"
    ∧ validateEdit noPosEdit "prepend" 0
      = .error "prepend[0].pos: must be an object \x7bline: number, hash: string\x7d"
    ∧ validateEditStr noPosEdit "append" 0 = .ok ()
    ∧ validateEditStr noPosEdit "prepend" 0 = .ok ()
    ∧ (∀ (cli : FS → String → List BatchEdit → Except String (FS × String)) (fs : FS) (dir : String),
        executeEdit cli fs dir ⟨"f.txt", none, some [noPosEdit], none, none, none⟩
          = (fs, .error "append[0].pos: must be an object \x7bline: number, hash: string\x7d")) :=
  ⟨rfl, rfl, rfl, rfl, fun _ _ _ => rfl⟩

/-- C3 counterexample: the claim says an anchor whose hash contains
characters outside 0-9A-Z is rejected, but `validateAnchor` accepts the
lowercase hash "ab" since it only checks the length. -/
theorem c3_alphabet_not_checked :
    validateAnchor (.obj [("line", .num 3), ("hash", .str "ab")]) "replace[0].pos" = .ok () := rfl

/-- C3 amended: `validateAnchor` accepts an anchor exactly when it is a
truthy object whose `line` is a number at least 1 and whose `hash` is a
string of length exactly 2; rejection messages cover the non-number,
non-positive, non-string and wrong-length cases, and no alphabet check is
performed at this layer. -/
theorem c3_anchor_acceptance (a : JSVal) (fieldName : String) :
    validateAnchor a fieldName = .ok () ↔ anchorOkSpec a = true := by
  unfold validateAnchor anchorOkSpec
  rcases a with _ | _ | n | s | b | xs | fields <;>
    simp [jsTruthy, jsTypeof, jsGet]
  rcases hl : lookupField fields "line" with _ | _ | n | s | b | xs | f2 <;> simp [hl]
  by_cases hn : n < 1
  · have h1 : ¬ (1 ≤ n) := by omega
    simp [hn, h1]
  · have h1 : 1 ≤ n := by omega
    simp [hn, h1]
    rcases hh : lookupField fields "hash" with _ | _ | m | s | b | xs | f3 <;> simp [hh]

/-- C3 witness: a concrete well-formed anchor is accepted. -/
theorem c3_anchor_acceptance_witness :
    validateAnchor (.obj [("line", .num 5), ("hash", .str "ZZ")]) "f" = .ok () :=
  (c3_anchor_acceptance (.obj [("line", .num 5), ("hash", .str "ZZ")]) "f").mpr (by decide)

/-- C5: with `write` absent and all four operation arrays absent or empty,
the wrapper raises the no-edits error without consulting the CLI (the
result does not depend on it) and returns the file system untouched. -/
theorem c5_empty_batch_rejected
    (cli : FS → String → List BatchEdit → Except String (FS × String))
    (fs : FS) (dir fp : String) (r a p d : Option (List JSVal))
    (hr : r = none ∨ r = some []) (ha : a = none ∨ a = some [])
    (hp : p = none ∨ p = some []) (hd : d = none ∨ d = some []) :
    executeEdit cli fs dir ⟨fp, r, a, p, d, none⟩ = (fs, .error noEditsMsg) := by
  rcases hr with rfl | rfl <;> rcases ha with rfl | rfl <;>
    rcases hp with rfl | rfl <;> rcases hd with rfl | rfl <;> rfl

/-- C5 witness at a concrete empty batch. -/
theorem c5_empty_batch_rejected_witness :
    executeEdit cliNone fsEmpty "/d" ⟨"f.txt", none, some [], none, some [], none⟩
      = (fsEmpty, .error noEditsMsg) :=
  c5_empty_batch_rejected cliNone fsEmpty "/d" "f.txt" none (some []) none (some [])
    (Or.inl rfl) (Or.inr rfl) (Or.inl rfl) (Or.inr rfl)

/-- C8: a successfully validated batch lists all replace operations first,
then all append, then all prepend, then all delete operations, each kind in
its input order, and each delete encoded as a replace with empty lines. -/
theorem c8_batch_kind_order (fp : String) (r a p d : List JSVal) (es : List BatchEdit)
    (h : buildEdits ⟨fp, some r, some a, some p, some d, none⟩ = .ok es) :
    es = r.map mkReplace ++ a.map mkAppend ++ p.map mkPrepend
      ++ d.map (fun e => BatchEdit.replaceE (jsGet e "pos") (jsGet e "end") (.arr [])) := by
  unfold buildEdits at h
  simp only [optList] at h
  cases h1 : processOps "replace" mkReplace 0 r with
  | error m => rw [h1] at h; cases h
  | ok rr =>
    rw [h1] at h
    cases h2 : processOps "append" mkAppend 0 a with
    | error m => rw [h2] at h; cases h
    | ok aa =>
      rw [h2] at h
      cases h3 : processOps "prepend" mkPrepend 0 p with
      | error m => rw [h3] at h; cases h
      | ok pp =>
        rw [h3] at h
        cases h4 : processOps "delete" mkDelete 0 d with
        | error m => rw [h4] at h; cases h
        | ok dd =>
          rw [h4] at h
          injection h with h
          rw [← h, processOps_ok _ _ _ _ _ h1, processOps_ok _ _ _ _ _ h2,
              processOps_ok _ _ _ _ _ h3, processOps_ok _ _ _ _ _ h4]
          rfl

/-- C8 witness on a concrete batch with one operation of each kind. -/
theorem c8_batch_kind_order_witness :
    [BatchEdit.replaceE posAB .undefined (.arr [.str "r"]),
     .appendE posAB (.arr [.str "a"]),
     .prependE posAB (.arr [.str "p"]),
     .replaceE posAB .undefined (.arr [])]
      = [JSVal.obj [("pos", posAB), ("lines", .arr [.str "r"])]].map mkReplace
        ++ [JSVal.obj [("pos", posAB), ("lines", .arr [.str "a"])]].map mkAppend
        ++ [JSVal.obj [("pos", posAB), ("lines", .arr [.str "p"])]].map mkPrepend
        ++ [JSVal.obj [("pos", posAB)]].map
            (fun e => BatchEdit.replaceE (jsGet e "pos") (jsGet e "end") (.arr [])) :=
  c8_batch_kind_order "f" _ _ _ _ _ rfl

/-- C9: with `write` present, the wrapper's entire result, file system
included, is independent of the replace, append, prepend and delete
arguments and of the CLI; none of those operations is validated or
applied. -/
theorem c9_write_ignores_ops
    (cli₁ cli₂ : FS → String → List BatchEdit → Except String (FS × String))
    (fs : FS) (dir fp : String)
    (r₁ a₁ p₁ d₁ r₂ a₂ p₂ d₂ : Option (List JSVal)) (w : String) :
    executeEdit cli₁ fs dir ⟨fp, r₁, a₁, p₁, d₁, some w⟩
      = executeEdit cli₂ fs dir ⟨fp, r₂, a₂, p₂, d₂, some w⟩ := rfl

/-- C10: both tools resolve the target path by passing absolute paths
through unchanged and otherwise concatenating the context directory, a
slash, and the raw argument, with no normalization: hashread hands exactly
that path to the CLI, the hashedit write branch writes exactly there, and
`..` segments and empty paths are kept verbatim. -/
theorem c10_path_resolution :
    (∀ (cli : String → List String → Except String String) (dir : String) (args : ReadArgs),
      executeRead cli dir args = cli (resolvePathSpec dir args.filePath) (readFlags args))
    ∧ (∀ (cli : FS → String → List BatchEdit → Except String (FS × String))
        (fs : FS) (dir fp : String) (r a p d : Option (List JSVal)) (w pth : String),
        (executeEdit cli fs dir ⟨fp, r, a, p, d, some w⟩).1 pth
          = if pth = resolvePathSpec dir fp then some w else fs pth)
    ∧ resolvePathSpec "/work" "../escape.txt" = "/work/../escape.txt"
    ∧ resolvePathSpec "/work" "" = "/work/"
    ∧ resolvePathSpec "/work" "/etc/hosts" = "/etc/hosts" := by
  refine ⟨fun cli dir args => rfl, fun cli fs dir fp r a p d w pth => rfl, ?_, ?_, ?_⟩
  · decide
  · decide
  · decide

/-- C2: the wrapper realizes every delete exactly as a replace over the
same range with empty lines, and in the engine model a first-class delete
of a half-open interval produces the same post-edit buffer as a replace of
that interval with the empty line list. -/
theorem c2_delete_equals_empty_replace (fp : String) (d : List JSVal) (es : List BatchEdit)
    (h : buildEdits ⟨fp, none, none, none, some d, none⟩ = .ok es)
    (B : List Line) (s e : Nat) :
    es = d.map (fun ed => BatchEdit.replaceE (jsGet ed "pos") (jsGet ed "end") (.arr []))
    ∧ applyDelete B s e = applyReplace B s e [] := by
  constructor
  · have hrw : buildEdits ⟨fp, none, none, none, some d, none⟩
        = (match processOps "delete" mkDelete 0 d with
           | .error msg => .error msg
           | .ok dd => .ok (([] : List BatchEdit) ++ [] ++ [] ++ dd)) := rfl
    rw [hrw] at h
    cases h4 : processOps "delete" mkDelete 0 d with
    | error m => rw [h4] at h; cases h
    | ok dd =>
      rw [h4] at h
      injection h with h
      rw [← h, processOps_ok _ _ _ _ _ h4]
      rfl
  · unfold applyDelete applyReplace
    simp

/-- C2 witness on a concrete one-element delete batch and a concrete
buffer. -/
theorem c2_delete_equals_empty_replace_witness :
    ([BatchEdit.replaceE posAB .undefined (.arr [])]
       = [JSVal.obj [("pos", posAB)]].map
           (fun ed => BatchEdit.replaceE (jsGet ed "pos") (jsGet ed "end") (.arr [])))
    ∧ applyDelete [⟨['a'], Term.lf⟩] 1 2 = applyReplace [⟨['a'], Term.lf⟩] 1 2 [] :=
  c2_delete_equals_empty_replace "f" [JSVal.obj [("pos", posAB)]] _ rfl [⟨['a'], Term.lf⟩] 1 2

/-- C4: with `write` present the wrapper unconditionally replaces the file
at the resolved path with exactly the supplied content, creating it when
absent, without validating any operation, and returns the short summary,
which carries no diff envelope. -/
theorem c4_write_full_rewrite
    (cli : FS → String → List BatchEdit → Except String (FS × String))
    (fs : FS) (dir fp : String) (r a p d : Option (List JSVal)) (w : String) :
    (executeEdit cli fs dir ⟨fp, r, a, p, d, some w⟩).2
        = .ok ((if (fs (resolvePathSpec dir fp)).isSome then "Updated" else "Created")
            ++ " file: " ++ fp ++ "\nSize: " ++ toString w.utf8ByteSize ++ " bytes")
    ∧ (∀ pth, (executeEdit cli fs dir ⟨fp, r, a, p, d, some w⟩).1 pth
        = if pth = resolvePathSpec dir fp then some w else fs pth)
    ∧ (∀ out, (executeEdit cli fs dir ⟨fp, r, a, p, d, some w⟩).2 = .ok out →
        '<' ∉ fp.data → hasDiffEnvelope out = false) := by
  refine ⟨rfl, fun pth => rfl, ?_⟩
  intro out hout hfp
  have he : (executeEdit cli fs dir ⟨fp, r, a, p, d, some w⟩).2
      = .ok ((if (fs (resolvePathSpec dir fp)).isSome then "Updated" else "Created")
          ++ " file: " ++ fp ++ "\nSize: " ++ toString w.utf8ByteSize ++ " bytes") := rfl
  rw [he] at hout
  injection hout with hout
  rw [← hout]
  unfold hasDiffEnvelope
  have hshow : ("<diff>" : String).data = '<' :: ("diff>" : String).data := rfl
  rw [hshow]
  apply containsSeq_nil_of_not_mem
  intro hm
  simp only [String.data_append, List.mem_append] at hm
  rcases hm with ((((hm | hm) | hm) | hm) | hm) | hm
  · revert hm
    cases (fs (resolvePathSpec dir fp)).isSome <;> decide
  · revert hm; decide
  · exact hfp hm
  · revert hm; decide
  · exact (repr_char_ne _ _ hm).2 rfl
  · revert hm; decide

/-- C4 witness: writing to an absent file creates it with the exact
content, and the concrete summary has no diff envelope. -/
theorem c4_write_full_rewrite_witness :
    (executeEdit cliNone fsEmpty "/d" ⟨"f.txt", none, none, none, none, some "hello"⟩).1 "/d/f.txt"
      = some "hello"
    ∧ hasDiffEnvelope "Created file: f.txt\nSize: 5 bytes" = false := by
  constructor
  · rw [(c4_write_full_rewrite cliNone fsEmpty "/d" "f.txt" none none none none "hello").2.1 "/d/f.txt"]
    decide
  · exact (c4_write_full_rewrite cliNone fsEmpty "/d" "f.txt" none none none none "hello").2.2
      "Created file: f.txt\nSize: 5 bytes" rfl (by decide)

/-- Reading a file of pure newlines splits into that many empty LF lines. -/
theorem splitLines_replicate : ∀ n : Nat,
    splitLines (List.replicate n '\n') = List.replicate n ⟨[], Term.lf⟩ := by
  intro n
  induction n with
  | zero => rfl
  | succ n ih =>
    rw [List.replicate_succ, List.replicate_succ]
    rw [show splitLines ('\n' :: List.replicate n '\n')
          = ⟨[], Term.lf⟩ :: splitLines (List.replicate n '\n') from rfl, ih]

theorem joinBuffer_replicate : ∀ m : Nat,
    joinBuffer (List.replicate m ⟨[], Term.lf⟩) = List.replicate m '\n' := by
  intro m
  induction m with
  | zero => rfl
  | succ m ih =>
    rw [List.replicate_succ, List.replicate_succ]
    simp [joinBuffer, termChars, ih]

/-- C6 counterexample: at the default window the limit is 2000, so reading
a 2001-line file and stripping the labels loses the final line and does not
reproduce the file. -/
theorem c6_default_limit_truncates :
    stripConcat (readDefault polyHash (List.replicate 2001 '\n'))
      ≠ List.replicate 2001 '\n' := by
  intro h
  unfold readDefault readOutput at h
  simp only [splitLines_replicate 2001, Nat.zero_min, List.drop_zero] at h
  rw [List.take_replicate] at h
  rw [show min 2000 2001 = 2000 by decide] at h
  rw [stripConcat_renderFrom, joinBuffer_replicate] at h
  have hl := congrArg List.length h
  simp only [List.length_replicate] at hl
  omega

/-- C6 amended: for any file whose line count does not exceed the default
limit of 2000, reading at the default window and stripping the hashline
label from each emitted line reproduces the file exactly, terminators
included; and the hashread wrapper returns the CLI's stdout verbatim. -/
theorem c6_read_round_trip (H : List Char → Nat) (F : List Char)
    (hlen : (splitLines F).length ≤ 2000) :
    stripConcat (readDefault H F) = F
    ∧ (∀ (cli : String → List String → Except String String) (dir : String)
        (args : ReadArgs) (out : String),
        cli (resolvePathSpec dir args.filePath) (readFlags args) = .ok out →
        executeRead cli dir args = .ok out) := by
  constructor
  · unfold readDefault readOutput
    simp only [Nat.zero_min, List.drop_zero]
    rw [List.take_of_length_le hlen, stripConcat_renderFrom, split_join]
  · intro cli dir args out hcli
    exact hcli

/-- C6 witness on a concrete mixed-terminator file with a colon in its
content. -/
theorem c6_read_round_trip_witness :
    stripConcat (readDefault polyHash "a\r\nb:c\nd".data) = "a\r\nb:c\nd".data :=
  (c6_read_round_trip polyHash "a\r\nb:c\nd".data (by decide)).1

theorem length_insertAt {α : Type} (k : Nat) (c : α) (B : List α) (h : k ≤ B.length) :
    (insertAt k c B).length = B.length + 1 := by
  unfold insertAt
  simp
  omega

theorem mem_insertAt {α : Type} (k : Nat) (c : α) (B : List α) (x : α)
    (hx : x ∈ insertAt k c B) : x = c ∨ x ∈ B := by
  unfold insertAt at hx
  rcases List.mem_append.1 hx with hx | hx
  · exact Or.inr (List.take_subset _ _ hx)
  · rcases List.mem_cons.1 hx with rfl | hx
    · exact Or.inl rfl
    · exact Or.inr (List.drop_subset _ _ hx)

theorem take_insertAt_ne (c : List Char) :
    ∀ (B : List (List Char)) (k j : Nat), k < B.length → k < j →
    c ≠ B.getD k [] → (insertAt k c B).take j ≠ B.take j := by
  intro B
  induction B with
  | nil => intro k j hk _ _; simp at hk
  | cons b B ih =>
    intro k j hk hj hne
    cases k with
    | zero =>
      cases j with
      | zero => omega
      | succ j =>
        intro h
        rw [show insertAt 0 c (b :: B) = c :: b :: B from rfl] at h
        rw [List.take_succ_cons, List.take_succ_cons] at h
        injection h with h1 h2
        exact hne h1
    | succ k =>
      cases j with
      | zero => omega
      | succ j =>
        intro h
        have hins : insertAt (k + 1) c (b :: B) = b :: insertAt k c B := rfl
        rw [hins] at h
        rw [List.take_succ_cons, List.take_succ_cons] at h
        injection h with h1 h2
        exact ih k j (by simpa using hk) (by omega) hne h2

/-- C7 counterexample: inserting a duplicate of line 1 at position 1 leaves
the hash of line 1 unchanged, because the cumulative digest input is
byte-identical; so inserting a line at k does not change the hash of every
line j at or after k. -/
theorem c7_duplicate_insert_keeps_hash :
    insertAt 0 ['a'] [['a']] = [['a'], ['a']]
    ∧ hashPair polyHash [['a'], ['a']] 1 = hashPair polyHash [['a']] 1 :=
  ⟨rfl, rfl⟩

/-- C7 amended: the 2-character hash of line i is the projected digest of
the cumulative newline-joined contents of lines 1..i, so it depends only on
those lines; inserting a line at position k preserves every hash below k,
and changes the cumulative digest input of every line j at or after k
(within the old buffer) provided the inserted content differs from the line
formerly at k — the 2-character hash itself then changes except for digest
collisions in the 36-squared space. -/
theorem c7_cumulative_hash_discipline (H : List Char → Nat) (B : List (List Char))
    (c : List Char) (k j : Nat)
    (hB : ∀ l ∈ B, '\n' ∉ l) (hc : '\n' ∉ c)
    (hk1 : 1 ≤ k) (hkB : k ≤ B.length) (hkj : k ≤ j) (hjB : j ≤ B.length)
    (hne : c ≠ B.getD (k - 1) []) :
    (∀ (B' : List (List Char)) (i : Nat), B.take i = B'.take i →
        hashPair H B i = hashPair H B' i)
    ∧ (∀ j', j' < k → hashPair H (insertAt (k - 1) c B) j' = hashPair H B j')
    ∧ cumul (insertAt (k - 1) c B) j ≠ cumul B j := by
  refine ⟨?_, ?_, ?_⟩
  · intro B' i he
    unfold hashPair cumul
    rw [he]
  · intro j' hj'
    unfold hashPair cumul
    have e : (insertAt (k - 1) c B).take j' = B.take j' := by
      unfold insertAt
      rw [List.take_append_of_le_length]
      · rw [List.take_take]
        congr 1
        omega
      · rw [List.length_take]
        omega
    rw [e]
  · intro heq
    unfold cumul at heq
    have hlen : ((insertAt (k - 1) c B).take j).length = (B.take j).length := by
      rw [List.length_take, List.length_take, length_insertAt _ _ _ (by omega)]
      omega
    have hT := joinSep_inj _ _ hlen ?_ ?_ heq
    · exact take_insertAt_ne c B (k - 1) j (by omega) (by omega) hne hT
    · intro l hl
      rcases mem_insertAt _ _ _ _ (List.take_subset _ _ hl) with rfl | hlB
      · exact hc
      · exact hB l hlB
    · intro l hl
      exact hB l (List.take_subset _ _ hl)

/-- C7 witness: a distinct line inserted at position 1 changes the
cumulative digest input of line 2. -/
theorem c7_cumulative_hash_discipline_witness :
    cumul (insertAt 0 ['x'] [['a'], ['b']]) 2 ≠ cumul [['a'], ['b']] 2 :=
  (c7_cumulative_hash_discipline polyHash [['a'], ['b']] ['x'] 1 2 (by decide) (by decide)
    (by decide) (by decide) (by decide) (by decide) (by decide)).2.2

end Hashline
